import Mathlib

/-!
# Verification of the revng `JumpTargetManager` control-flow-recovery engine

Shallow embedding of `src/jumptargetmanager.h` and the registry operations it
declares. The inline member functions of the header (`isExecutableRange`,
`isExecutableAddress`, `isInstructionAligned`, `isInterestingPC`,
`isJumpTarget`, `isReliablePC`) are translated directly from their C++
bodies. The member functions whose definitions are not part of the sources
(`getBlockAt`, `newPC`, `registerInstruction`, `getPrevPCWrite`, the
harvesting step of `findCodePointers`, `unvisit`) are modelled from the
specification, as indicated on each definition.

Machine addresses are modelled as `Nat` (the C++ uses `uint64_t`; no claim
here involves wrap-around, and no arithmetic below can overflow 64 bits in
the scenarios considered, so addresses are kept as unbounded naturals).
-/

namespace RevngJTM

/-- A guest address (`uint64_t` in the C++). -/
abbrev Addr := Nat

/-- An identifier standing for an `llvm::BasicBlock *`. -/
abbrev BlockId := Nat

/-- One translated operation (an `llvm::Instruction` produced for a guest
instruction). `pc` is the guest address it was registered under, `uid` makes
operations distinguishable so multiset claims are meaningful. -/
structure Op where
  pc : Addr
  uid : Nat
deriving DecidableEq, Repr

/-- A basic block: its translated operations in program order, and its
fallthrough successor (`some b` once the block falls through to `b`,
`none` when its terminator is of another kind or not yet emitted). -/
structure Block where
  ops : List Op
  next : Option BlockId
deriving DecidableEq, Repr

/-- State of a `JumpTargetManager` (fields of the C++ class that the claims
concern). `jumpTargets` is the address-ordered map `BlockMap JumpTargets`
(kept as a strictly sorted association list); `reliablePCs` is the set
`std::set<uint64_t> ReliablePCs`; `instrMap` is
`InstructionMap OriginalInstructionAddresses`, mapping a PC to the block
holding its first operation and the operation's offset inside that block;
`unexplored` is `std::vector<BlockWithAddress> Unexplored`;
`executableRanges` is `RangesVector ExecutableRanges`; `align` is
`SourceArchitecture.instructionAlignment()`. -/
structure JTM where
  executableRanges : List (Addr × Addr)
  align : Nat
  jumpTargets : List (Addr × BlockId)
  reliablePCs : List Addr
  visited : List BlockId
  unexplored : List (Addr × BlockId)
  blocks : List (BlockId × Block)
  instrMap : List (Addr × (BlockId × Nat))
  nextId : BlockId
deriving DecidableEq, Repr

/-- Exact-match lookup in the address→block map (`JumpTargets.find`). -/
def lookupJT (l : List (Addr × BlockId)) (pc : Addr) : Option BlockId :=
  (l.find? (fun p => p.1 == pc)).map (·.2)

/-- Insertion into the address-ordered map, keeping it sorted
(`JumpTargets[PC] = Block`). -/
def insertJT : List (Addr × BlockId) → Addr → BlockId → List (Addr × BlockId)
  | [], pc, b => [(pc, b)]
  | (a, x) :: t, pc, b =>
    if pc ≤ a then (pc, b) :: (a, x) :: t else (a, x) :: insertJT t pc b

/-- Lookup of a block's contents by identity. -/
def lookupBlock : List (BlockId × Block) → BlockId → Option Block
  | [], _ => none
  | (a, blk) :: t, bid => if a == bid then some blk else lookupBlock t bid

/-- Replace the contents of block `bid`. -/
def updateBlock : List (BlockId × Block) → BlockId → Block →
    List (BlockId × Block)
  | [], _, _ => []
  | (a, blk0) :: t, bid, blk =>
    if a == bid then (a, blk) :: t else (a, blk0) :: updateBlock t bid blk

/-- Lookup in `OriginalInstructionAddresses`; the most recent registration
wins, matching `std::map::operator[]` assignment. -/
def lookupIM (l : List (Addr × (BlockId × Nat))) (pc : Addr) :
    Option (BlockId × Nat) :=
  (l.find? (fun p => p.1 == pc)).map (·.2)

/-- Translation of `JumpTargetManager::isExecutableRange(Start, End)`: true iff some single
executable range `[first, second)` contains both `Start` and `End` with a
strict comparison on the upper bound for both (translated from the loop in
the header). -/
def isExecutableRange (s : JTM) (start e : Addr) : Bool :=
  s.executableRanges.any (fun range =>
    decide (range.1 ≤ start) && decide (start < range.2)
      && decide (range.1 ≤ e) && decide (e < range.2))

/-- Translation of `JumpTargetManager::isExecutableAddress(PC)`: true iff some executable
range `[first, second)` contains `PC`. -/
def isExecutableAddress (s : JTM) (pc : Addr) : Bool :=
  s.executableRanges.any (fun range =>
    decide (range.1 ≤ pc) && decide (pc < range.2))

/-- Translation of `JumpTargetManager::isInstructionAligned(PC)`:
`PC % SourceArchitecture.instructionAlignment() == 0`. -/
def isInstructionAligned (s : JTM) (pc : Addr) : Bool :=
  pc % s.align == 0

/-- Translation of `JumpTargetManager::isJumpTarget(PC)`: `JumpTargets.count(PC)`. -/
def isJumpTarget (s : JTM) (pc : Addr) : Bool :=
  s.jumpTargets.any (fun p => p.1 == pc)

/-- Translation of `JumpTargetManager::isInterestingPC(PC)`: executable, aligned, and not
already a jump target. -/
def isInterestingPC (s : JTM) (pc : Addr) : Bool :=
  isExecutableAddress s pc && isInstructionAligned s pc && !(isJumpTarget s pc)

/-- Core of `JumpTargetManager::isReliablePC` on the ordered map, translated
from the header body. `JumpTargets.lower_bound(PC)` on the sorted
association list is the split point of `dropWhile (key < PC)`; the branch
`It == JumpTargets.end()` reads `JumpTargets.rbegin()->first` (undefined on
an empty map, modelled as `none`) and asserts `BBPC < PC`; the branch
`BBPC != PC` decrements the iterator, asserting `It != JumpTargets.begin()`
(assertion failure modelled as `none`). The result is
`ReliablePCs.count(BBPC)`. -/
def isReliablePCCore (jt : List (Addr × BlockId)) (rel : List Addr)
    (pc : Addr) : Option Bool :=
  match jt.dropWhile (fun p => decide (p.1 < pc)) with
  | [] =>
    match jt.getLast? with
    | none => none
    | some last =>
      if last.1 < pc then some (rel.contains last.1) else none
  | entry :: _ =>
    if entry.1 == pc then some (rel.contains entry.1)
    else
      match (jt.takeWhile (fun p => decide (p.1 < pc))).getLast? with
      | none => none
      | some prev => some (rel.contains prev.1)

/-- Translation of `JumpTargetManager::isReliablePC(PC)` (see `isReliablePCCore`). -/
def isReliablePC (s : JTM) (pc : Addr) : Option Bool :=
  isReliablePCCore s.jumpTargets s.reliablePCs pc

/-- Look up the translated instruction registered for `pc` and its parent
block, as `OriginalInstructionAddresses` followed by
`Instruction->getParent()` does; a dangling correspondence (impossible once
registration only records operations inside live blocks) counts as no
registered instruction. -/
def findTranslated (s : JTM) (pc : Addr) : Option (BlockId × Nat × Block) :=
  match lookupIM s.instrMap pc with
  | none => none
  | some (bid, i) =>
    match lookupBlock s.blocks bid with
    | none => none
    | some blk => some (bid, i, blk)

/-- Modelled from the spec: `JumpTargetManager::getBlockAt` (`materialize`),
whose definition is not among the sources. Per §4.1: (1) return none when
the PC is outside every executable range or misaligned (using the header's
`isExecutableAddress` and `isInstructionAligned`); (2) on an exact match
return the entry, promoting it and clearing its visited bit when `reliable`
and the entry is currently unreliable; (3) when the PC falls strictly
inside an already-translated block, split it: operations before the offset
remain and fall through to a new block holding the operations at and after
the offset, the new block becoming the registered jump-target entry; (4)
otherwise create a fresh placeholder, register it and enqueue it. Entries
created by (3) and (4) record the `reliable` flag of the call. -/
def getBlockAt (s : JTM) (pc : Addr) (reliable : Bool) :
    Option BlockId × JTM :=
  if !(isExecutableAddress s pc && isInstructionAligned s pc) then
    (none, s)
  else
    match lookupJT s.jumpTargets pc with
    | some bid =>
      if reliable && !(s.reliablePCs.contains pc) then
        (some bid,
         { s with
             reliablePCs := pc :: s.reliablePCs
             visited := s.visited.erase bid })
      else
        (some bid, s)
    | none =>
      match findTranslated s pc with
      | some (bid, i, blk) =>
        (some s.nextId,
         { s with
             blocks :=
               (s.nextId, ⟨blk.ops.drop i, blk.next⟩)
                 :: updateBlock s.blocks bid ⟨blk.ops.take i, some s.nextId⟩
             instrMap :=
               s.instrMap.map (fun e =>
                 if e.2.1 == bid && decide (i ≤ e.2.2) then
                   (e.1, (s.nextId, e.2.2 - i))
                 else e)
             jumpTargets := insertJT s.jumpTargets pc s.nextId
             reliablePCs :=
               if reliable then pc :: s.reliablePCs else s.reliablePCs
             nextId := s.nextId + 1 })
      | none =>
        (some s.nextId,
         { s with
             blocks := (s.nextId, ⟨[], none⟩) :: s.blocks
             jumpTargets := insertJT s.jumpTargets pc s.nextId
             unexplored := (pc, s.nextId) :: s.unexplored
             reliablePCs :=
               if reliable then pc :: s.reliablePCs else s.reliablePCs
             nextId := s.nextId + 1 })

/-- Modelled from the spec: `JumpTargetManager::newPC` (`newTarget`), whose
definition is not among the sources. Per §4.1: if the address is already
translated, return the existing block with `shouldContinue = false`;
otherwise create or return a placeholder, enqueue it if it is new, and
return it with `shouldContinue = true`. Every call returns a block. -/
def newPC (s : JTM) (pc : Addr) : (BlockId × Bool) × JTM :=
  match lookupJT s.jumpTargets pc with
  | some bid =>
    match lookupBlock s.blocks bid with
    | some blk =>
      if blk.ops.isEmpty then ((bid, true), s) else ((bid, false), s)
    | none => ((bid, true), s)
  | none =>
    ((s.nextId, true),
     { s with
         blocks := (s.nextId, ⟨[], none⟩) :: s.blocks
         jumpTargets := insertJT s.jumpTargets pc s.nextId
         unexplored := (pc, s.nextId) :: s.unexplored
         nextId := s.nextId + 1 })

/-- Modelled from the spec: `JumpTargetManager::registerInstruction`, whose
definition is not among the sources. Records the PC-to-operation
correspondence needed for splitting (§4.1); the operation being recorded is
the one the translator just appended to the block under translation, so the
model appends it and records its parent block and offset. -/
def registerInstruction (s : JTM) (pc : Addr) (u : Nat) (bid : BlockId) :
    JTM :=
  match lookupBlock s.blocks bid with
  | none => s
  | some blk =>
    { s with
        blocks := updateBlock s.blocks bid ⟨blk.ops ++ [⟨pc, u⟩], blk.next⟩
        instrMap := (pc, (bid, blk.ops.length)) :: s.instrMap }

/-- Modelled from the spec: `JumpTargetManager::unvisit`, whose definition
is not among the sources. Clears the visited bit of the block (§4.1). -/
def unvisit (s : JTM) (bid : BlockId) : JTM :=
  { s with visited := s.visited.erase bid }

/-- Modelled from the spec: the per-candidate step of
`JumpTargetManager::findCodePointers` / `harvestGlobalData`, whose
definitions are not among the sources. Per §4.4, each scanned integer value
that is aligned, inside an executable range and not already known (the
header's `isInterestingPC`) is fed into `materialize(value, reliable =
false)`; any other value is dropped. -/
def harvestStep (s : JTM) (v : Addr) : JTM :=
  if isInterestingPC s v then (getBlockAt s v false).2 else s

/-- One registry operation, for claims quantifying over operation
sequences. -/
inductive RegOp where
  | materialize (pc : Addr) (reliable : Bool)
  | newTarget (pc : Addr)
  | register (pc : Addr) (u : Nat) (bid : BlockId)
  | unvisitOp (bid : BlockId)
  | harvestValue (v : Addr)

/-- Apply one registry operation to the state. -/
def step (s : JTM) : RegOp → JTM
  | .materialize pc r => (getBlockAt s pc r).2
  | .newTarget pc => (newPC s pc).2
  | .register pc u bid => registerInstruction s pc u bid
  | .unvisitOp bid => unvisit s bid
  | .harvestValue v => harvestStep s v

/-- Apply a sequence of registry operations. -/
def run (s : JTM) (l : List RegOp) : JTM :=
  l.foldl step s

/-! ## Direct-Branch Resolver model

`TranslateDirectBranchesPass` and `getPrevPCWrite` have no definition among
the sources; they are modelled from the spec (§4.3) and the header's
documentation. Only the instruction shapes the resolver distinguishes are
modelled. -/

/-- An instruction, as far as the backward PC-write search distinguishes
them: a store to the PC register (with its statically-known value, when the
stored value is a compile-time constant), a store elsewhere, a call to an
opaque external helper, or anything else. -/
inductive Instr where
  | storePC (val : Option Addr)
  | storeOther
  | callHelper
  | other
deriving DecidableEq, Repr

/-- Whether an instruction is a store to the PC register. -/
def isPCWrite : Instr → Bool
  | .storePC _ => true
  | _ => false

/-- Backward scan over the already-reversed instruction list: the first
store to the PC is returned; a call to an opaque helper met first stops the
search empty-handed; running out of instructions (the block's start) also
yields nothing — per §4.3 the exit is then left indirect. -/
def prevPCWriteRev : List Instr → Option Instr
  | [] => none
  | Instr.storePC v :: _ => some (Instr.storePC v)
  | Instr.callHelper :: _ => none
  | _ :: rest => prevPCWriteRev rest

/-- Modelled from the spec: `JumpTargetManager::getPrevPCWrite`, whose
definition is not among the sources. `body` is the instruction list of the
single basic block containing the `ExitTB` call, in program order, up to
that call; the search walks it backward and never leaves it (§4.3: "walk
backward within that same block only"). -/
def getPrevPCWrite (body : List Instr) : Option Instr :=
  prevPCWriteRev body.reverse

/-- A block exit after the resolver ran: still the dispatcher (indirect),
or a direct edge to the block for a statically-known PC. -/
inductive Exit where
  | dispatcher
  | direct (pc : Addr)
deriving DecidableEq, Repr

/-- Modelled from the spec: the per-block action of
`TranslateDirectBranchesPass::runOnFunction`, whose definition is not among
the sources. For a block exiting through `ExitTB`, look backward for the
most recent PC write; when it exists and stores a compile-time constant
`k`, call `materialize(k, reliable = true)` and rewrite the exit into a
direct edge to the resulting block; in every other case (no write found,
opaque helper met first, or a non-constant write) leave the exit
indirect. -/
def resolveBlock (s : JTM) (body : List Instr) : Exit × JTM :=
  match getPrevPCWrite body with
  | some (Instr.storePC (some k)) =>
    match getBlockAt s k true with
    | (some _, s') => (Exit.direct k, s')
    | (none, s') => (Exit.dispatcher, s')
  | _ => (Exit.dispatcher, s)

/-! ## Basic lemmas about the map operations -/

theorem lookupJT_insertJT (l : List (Addr × BlockId)) (pc : Addr)
    (b : BlockId) : lookupJT (insertJT l pc b) pc = some b := by
  induction l with
  | nil => simp [insertJT, lookupJT]
  | cons hd t ih =>
    obtain ⟨a, x⟩ := hd
    by_cases h : pc ≤ a
    · simp [insertJT, h, lookupJT]
    · have hne : (a == pc) = false := by
        simp only [beq_eq_false_iff_ne]
        exact Nat.ne_of_lt (Nat.lt_of_not_le h)
      simpa [insertJT, h, lookupJT, hne] using ih

theorem lookupJT_eq_none (l : List (Addr × BlockId)) (pc : Addr)
    (h : l.any (fun p => p.1 == pc) = false) : lookupJT l pc = none := by
  simp only [lookupJT]
  rw [List.find?_eq_none.mpr (by simpa [List.any_eq_false] using h)]
  rfl

/-- A small concrete manager state exercising the definitions: one
executable range `[0x1000, 0x2000)`, instruction alignment 4, nothing
registered yet. -/
def demoState : JTM where
  executableRanges := [(0x1000, 0x2000)]
  align := 4
  jumpTargets := []
  reliablePCs := []
  visited := []
  unexplored := []
  blocks := []
  instrMap := []
  nextId := 0

/-! ## C3: invalid-address handling of `materialize` -/

/-- C3: for an address outside every executable range or misaligned,
`materialize` (`getBlockAt`) returns an absent result rather than raising,
for either reliability flag, and leaves the registry state unchanged. -/
theorem getBlockAt_invalid_address (s : JTM) (pc : Addr) (r : Bool)
    (h : isExecutableAddress s pc = false ∨
         isInstructionAligned s pc = false) :
    getBlockAt s pc r = (none, s) := by
  unfold getBlockAt
  rcases h with h | h <;> simp [h]

theorem getBlockAt_invalid_address_witness :
    getBlockAt demoState 0x3000 true = (none, demoState) :=
  getBlockAt_invalid_address demoState 0x3000 true (Or.inl (by decide))

/-! ## C9: strict upper comparison in `isExecutableRange` -/

/-- C9: `isExecutableRange(Start, End)` returns true exactly when one
executable range `[first, second)` satisfies `first ≤ Start < second` and
`first ≤ End < second` (strict comparison on `End`); consequently the
half-open range `[0x1000, 0x2000)`, whose `End` equals the executable
range's end address, is reported as not executable even though every
address it contains satisfies `isExecutableAddress`. -/
theorem isExecutableRange_strict_end :
    (∀ (s : JTM) (start e : Addr),
      isExecutableRange s start e = true ↔
        ∃ range ∈ s.executableRanges,
          range.1 ≤ start ∧ start < range.2 ∧ range.1 ≤ e ∧ e < range.2) ∧
    isExecutableRange demoState 0x1000 0x2000 = false ∧
    (∀ a : Addr, 0x1000 ≤ a → a < 0x2000 →
      isExecutableAddress demoState a = true) := by
  refine ⟨fun s start e => ?_, by decide, fun a h1 h2 => ?_⟩
  · simp [isExecutableRange, List.any_eq_true, and_assoc]
  · have hranges : demoState.executableRanges = [(0x1000, 0x2000)] := rfl
    simp only [isExecutableAddress, hranges, List.any_cons, List.any_nil,
      Bool.or_false, Bool.and_eq_true, decide_eq_true_eq]
    exact ⟨h1, h2⟩

theorem isExecutableRange_strict_end_witness :
    isExecutableRange demoState 0x1000 0x2000 = false ∧
    isExecutableAddress demoState 0x1FFC = true :=
  ⟨isExecutableRange_strict_end.2.1,
   isExecutableRange_strict_end.2.2 0x1FFC (by decide) (by decide)⟩

/-! ## C5: the `newTarget` (`newPC`) contract -/

/-- C5: `newTarget` on an already-translated address returns the existing
block with `shouldContinue = false`; on an existing untranslated
placeholder it returns it with `shouldContinue = true` without touching the
state; on a new address it registers and enqueues a fresh placeholder and
returns it with `shouldContinue = true`. Every call returns a block (the
result's first component is total). -/
theorem newTarget_contract (s : JTM) (pc : Addr) :
    (∀ bid blk, lookupJT s.jumpTargets pc = some bid →
        lookupBlock s.blocks bid = some blk → blk.ops ≠ [] →
        newPC s pc = ((bid, false), s)) ∧
    (∀ bid blk, lookupJT s.jumpTargets pc = some bid →
        lookupBlock s.blocks bid = some blk → blk.ops = [] →
        newPC s pc = ((bid, true), s)) ∧
    (lookupJT s.jumpTargets pc = none →
        (newPC s pc).1.1 = s.nextId ∧ (newPC s pc).1.2 = true ∧
        lookupJT (newPC s pc).2.jumpTargets pc = some s.nextId ∧
        (pc, s.nextId) ∈ (newPC s pc).2.unexplored) := by
  refine ⟨?_, ?_, ?_⟩
  · intro bid blk h1 h2 h3
    simp [newPC, h1, h2, h3]
  · intro bid blk h1 h2 h3
    simp [newPC, h1, h2, h3]
  · intro h1
    simp [newPC, h1, lookupJT_insertJT]

theorem newTarget_contract_witness :
    (newPC demoState 0x1000).1.1 = 0 ∧
    (newPC demoState 0x1000).1.2 = true ∧
    lookupJT (newPC demoState 0x1000).2.jumpTargets 0x1000 = some 0 ∧
    (0x1000, 0) ∈ (newPC demoState 0x1000).2.unexplored :=
  (newTarget_contract demoState 0x1000).2.2 (by decide)

/-! ## C7: harvester exclusion -/

/-- C7: a harvested candidate value failing the alignment or
executable-range check, or already registered (`isInterestingPC` false), is
never fed into `materialize` and leaves the registry untouched; a candidate
satisfying `isInterestingPC` is registered through
`materialize(value, reliable = false)`, so the reliable set is unchanged
and the value acquires a registry entry. -/
theorem harvester_exclusion (s : JTM) (v : Addr) :
    (isInterestingPC s v = false → harvestStep s v = s) ∧
    (isInterestingPC s v = true →
      (harvestStep s v).reliablePCs = s.reliablePCs ∧
      lookupJT (harvestStep s v).jumpTargets v = some s.nextId) := by
  constructor
  · intro h; simp [harvestStep, h]
  · intro h
    have hx := h
    simp only [isInterestingPC, Bool.and_eq_true, Bool.not_eq_true'] at hx
    obtain ⟨⟨hexec, halign⟩, hjt⟩ := hx
    have hnone : lookupJT s.jumpTargets v = none :=
      lookupJT_eq_none _ _ (by simpa [isJumpTarget] using hjt)
    simp only [harvestStep, h, if_true]
    unfold getBlockAt
    rw [hexec, halign]
    simp only [Bool.and_self, Bool.not_true, Bool.false_eq_true, if_false,
      hnone]
    cases hft : findTranslated s v with
    | none => simp [lookupJT_insertJT]
    | some trip => simp [lookupJT_insertJT]

theorem harvester_exclusion_witness :
    (harvestStep demoState 0x1000).reliablePCs = demoState.reliablePCs ∧
    lookupJT (harvestStep demoState 0x1000).jumpTargets 0x1000 = some 0 :=
  (harvester_exclusion demoState 0x1000).2 (by decide)

/-! ## C4: monotonicity of the reliable bit -/

theorem getBlockAt_reliablePCs (s : JTM) (pc : Addr) (r : Bool) :
    (getBlockAt s pc r).2.reliablePCs = s.reliablePCs ∨
    (getBlockAt s pc r).2.reliablePCs = pc :: s.reliablePCs := by
  unfold getBlockAt
  split
  · exact Or.inl rfl
  · split
    · split
      · exact Or.inr rfl
      · exact Or.inl rfl
    · split
      · cases r with
        | false => exact Or.inl rfl
        | true => exact Or.inr rfl
      · cases r with
        | false => exact Or.inl rfl
        | true => exact Or.inr rfl

theorem newPC_reliablePCs (s : JTM) (pc : Addr) :
    (newPC s pc).2.reliablePCs = s.reliablePCs := by
  unfold newPC
  split
  · split
    · split <;> rfl
    · rfl
  · rfl

theorem registerInstruction_reliablePCs (s : JTM) (pc : Addr) (u : Nat)
    (bid : BlockId) :
    (registerInstruction s pc u bid).reliablePCs = s.reliablePCs := by
  unfold registerInstruction
  split <;> rfl

theorem step_preserves_reliable (s : JTM) (a : Addr) (op : RegOp)
    (h : s.reliablePCs.contains a = true) :
    (step s op).reliablePCs.contains a = true := by
  cases op with
  | materialize pc r =>
    have hm : a ∈ s.reliablePCs := by simpa using h
    rcases getBlockAt_reliablePCs s pc r with he | he <;>
      simp [step, he, hm]
  | newTarget pc => simpa [step, newPC_reliablePCs] using h
  | register pc u bid => simpa [step, registerInstruction_reliablePCs] using h
  | unvisitOp bid => simpa [step, unvisit] using h
  | harvestValue v =>
    by_cases hi : isInterestingPC s v = true
    · have hm : a ∈ s.reliablePCs := by simpa using h
      rcases getBlockAt_reliablePCs s v false with he | he <;>
        simp [step, harvestStep, hi, he, hm]
    · simp only [Bool.not_eq_true] at hi
      simpa [step, harvestStep, hi] using h

/-- C4: across any sequence of registry operations (materialize, newTarget,
registerInstruction, unvisit, harvesting), a fixed address's reliable bit
only ever transitions false → true: once the address is in the reliable
set, it stays there. -/
theorem reliable_monotone (s : JTM) (a : Addr) (l : List RegOp)
    (h : s.reliablePCs.contains a = true) :
    (run s l).reliablePCs.contains a = true := by
  induction l generalizing s with
  | nil => exact h
  | cons op t ih => exact ih _ (step_preserves_reliable s a op h)

theorem reliable_monotone_witness :
    (run { demoState with reliablePCs := [0x1000] }
        [RegOp.materialize 0x1004 false, RegOp.unvisitOp 0,
         RegOp.newTarget 0x1008, RegOp.harvestValue 0x100C,
         RegOp.register 0x1004 7 0]).reliablePCs.contains 0x1000 = true :=
  reliable_monotone { demoState with reliablePCs := [0x1000] } 0x1000
    [RegOp.materialize 0x1004 false, RegOp.unvisitOp 0,
     RegOp.newTarget 0x1008, RegOp.harvestValue 0x100C,
     RegOp.register 0x1004 7 0] (by decide)

/-! ## C8: idempotence of `materialize` -/

theorem getBlockAt_found (s : JTM) (pc : Addr) (r : Bool) (b : BlockId)
    (hexec : isExecutableAddress s pc = true)
    (halign : isInstructionAligned s pc = true)
    (hlook : lookupJT s.jumpTargets pc = some b) :
    (getBlockAt s pc r).1 = some b := by
  unfold getBlockAt
  rw [hexec, halign, hlook]
  simp only [Bool.and_self, Bool.not_true, Bool.false_eq_true, if_false]
  split <;> rfl

/-- C8: if `materialize(address, r)` returns a block `b` (turning the state
into `s'`), then calling it again on `s'` with the same arguments returns
the same block `b`. -/
theorem materialize_idempotent (s : JTM) (pc : Addr) (r : Bool)
    (b : BlockId) (s' : JTM) (h : getBlockAt s pc r = (some b, s')) :
    (getBlockAt s' pc r).1 = some b := by
  unfold getBlockAt at h
  split at h
  · exact absurd (congrArg Prod.fst h) (by simp)
  · rename_i hguard
    have hga : (isExecutableAddress s pc && isInstructionAligned s pc)
        = true := by
      simpa using hguard
    rw [Bool.and_eq_true] at hga
    obtain ⟨hexec, halignb⟩ := hga
    split at h
    · rename_i bid hlook
      split at h
      · injection h with h1 h2
        injection h1 with h1
        subst h1 h2
        exact getBlockAt_found _ pc r _ hexec halignb hlook
      · injection h with h1 h2
        injection h1 with h1
        subst h1 h2
        exact getBlockAt_found _ pc r _ hexec halignb hlook
    · rename_i hlook
      split at h
      · injection h with h1 h2
        injection h1 with h1
        subst h1 h2
        exact getBlockAt_found _ pc r _ hexec halignb
          (lookupJT_insertJT s.jumpTargets pc s.nextId)
      · injection h with h1 h2
        injection h1 with h1
        subst h1 h2
        exact getBlockAt_found _ pc r _ hexec halignb
          (lookupJT_insertJT s.jumpTargets pc s.nextId)

theorem materialize_idempotent_witness :
    (getBlockAt (getBlockAt demoState 0x1000 false).2 0x1000 false).1
      = some 0 :=
  materialize_idempotent demoState 0x1000 false 0
    (getBlockAt demoState 0x1000 false).2 (by decide)

/-! ## C2 and C10: `isReliablePC` and its precondition -/

theorem isReliablePCCore_eq (jt : List (Addr × BlockId)) (rel : List Addr)
    (pc : Addr) (hs : jt.Pairwise (fun p q => p.1 < q.1)) :
    isReliablePCCore jt rel pc =
      ((jt.filter (fun p => decide (p.1 ≤ pc))).getLast?).map
        (fun e => rel.contains e.1) := by
  have hsplit := List.takeWhile_append_dropWhile
    (p := fun p : Addr × BlockId => decide (p.1 < pc)) (l := jt)
  have hPmem : ∀ p ∈ jt.takeWhile (fun p : Addr × BlockId => decide (p.1 < pc)),
      p.1 < pc := by
    intro p hp
    simpa using List.mem_takeWhile_imp hp
  have hPfilter :
      (jt.takeWhile (fun p : Addr × BlockId => decide (p.1 < pc))).filter
        (fun p => decide (p.1 ≤ pc))
        = jt.takeWhile (fun p : Addr × BlockId => decide (p.1 < pc)) :=
    List.filter_eq_self.mpr (fun a ha => by
      simpa using Nat.le_of_lt (hPmem a ha))
  cases hD : jt.dropWhile (fun p : Addr × BlockId => decide (p.1 < pc)) with
  | nil =>
    have hjt : jt.takeWhile (fun p : Addr × BlockId => decide (p.1 < pc))
        = jt := by
      conv_rhs => rw [← hsplit]
      rw [hD, List.append_nil]
    have hfjt := hPfilter
    rw [hjt] at hfjt
    cases hL : jt.getLast? with
    | none =>
      rw [List.getLast?_eq_none_iff] at hL
      subst hL
      rfl
    | some last =>
      have hlast : last.1 < pc := by
        apply hPmem
        rw [hjt]
        exact List.mem_of_getLast?_eq_some hL
      simp only [isReliablePCCore, hD, hL, if_pos hlast, hfjt]
      rfl
  | cons e tl =>
    have hef : decide (e.1 < pc) = false := by
      have hh := List.head?_dropWhile_not
        (fun p : Addr × BlockId => decide (p.1 < pc)) jt
      rw [hD] at hh
      simpa using hh
    have hepc : pc ≤ e.1 := by simpa using hef
    have hSgt : ∀ q ∈ tl, e.1 < q.1 := by
      have hpw : (jt.dropWhile
          (fun p : Addr × BlockId => decide (p.1 < pc))).Pairwise
          (fun p q => p.1 < q.1) :=
        hs.sublist (List.dropWhile_sublist _)
      rw [hD, List.pairwise_cons] at hpw
      exact hpw.1
    have hfilterjt : jt.filter (fun p => decide (p.1 ≤ pc))
        = jt.takeWhile (fun p : Addr × BlockId => decide (p.1 < pc))
          ++ (e :: tl).filter (fun p => decide (p.1 ≤ pc)) := by
      conv_lhs => rw [← hsplit, hD]
      rw [List.filter_append, hPfilter]
    have hTnil : tl.filter (fun p : Addr × BlockId => decide (p.1 ≤ pc))
        = [] := by
      rw [List.filter_eq_nil_iff]
      intro q hq
      simp only [decide_eq_true_eq]
      exact Nat.not_le.mpr (Nat.lt_of_le_of_lt hepc (hSgt q hq))
    by_cases he : e.1 = pc
    · have hbeq : (e.1 == pc) = true := by simpa using he
      have hfe : (e :: tl).filter (fun p : Addr × BlockId => decide (p.1 ≤ pc))
          = [e] := by
        rw [List.filter_cons_of_pos (by simpa using Nat.le_of_eq he), hTnil]
      simp only [isReliablePCCore, hD, hbeq, if_true, hfilterjt, hfe,
        List.getLast?_concat]
      rfl
    · have hbeq : (e.1 == pc) = false := by simpa using he
      have hlt : pc < e.1 := Nat.lt_of_le_of_ne hepc (fun hx => he hx.symm)
      have hfe : (e :: tl).filter (fun p : Addr × BlockId => decide (p.1 ≤ pc))
          = [] := by
        rw [List.filter_cons_of_neg
          (by simpa using Nat.not_le.mpr hlt), hTnil]
      simp only [isReliablePCCore, hD, hbeq, Bool.false_eq_true, if_false,
        hfilterjt, hfe, List.append_nil]
      cases hPL : (jt.takeWhile
          (fun p : Addr × BlockId => decide (p.1 < pc))).getLast? with
      | none => rfl
      | some prev => rfl

/-- C2: on a sorted registry holding at least one entry at an address at or
before `pc` — equivalently, the predecessor lookup
`(jumpTargets.filter (key ≤ pc)).getLast?` finds the entry `e` with the
greatest address at-or-before `pc` — `isReliablePC` returns exactly the
reliable bit of that entry. -/
theorem reliability_inheritance (s : JTM) (pc : Addr) (e : Addr × BlockId)
    (hs : s.jumpTargets.Pairwise (fun p q => p.1 < q.1))
    (he : (s.jumpTargets.filter (fun p => decide (p.1 ≤ pc))).getLast?
      = some e) :
    isReliablePC s pc = some (s.reliablePCs.contains e.1) := by
  rw [isReliablePC, isReliablePCCore_eq _ _ _ hs, he]
  rfl

theorem reliability_inheritance_witness :
    isReliablePC
      { demoState with
          jumpTargets := [(0x1000, 0), (0x1010, 1)]
          reliablePCs := [0x1000] } 0x1001 = some true :=
  reliability_inheritance
    { demoState with
        jumpTargets := [(0x1000, 0), (0x1010, 1)]
        reliablePCs := [0x1000] } 0x1001 (0x1000, 0) (by decide) (by decide)

/-- C10: `isReliablePC` needs at least one registered entry at or before
the PC; if the jump-target map is empty, or the PC is strictly smaller
than every registered address, the C++ dereferences an invalid reverse
iterator or fails the `It != JumpTargets.begin()` assertion. The model
returns no value (`none`) in exactly those cases instead of returning
`some false`. -/
theorem isReliablePC_requires_entry (s : JTM) (pc : Addr)
    (hs : s.jumpTargets.Pairwise (fun p q => p.1 < q.1))
    (h : ∀ p ∈ s.jumpTargets, pc < p.1) :
    isReliablePC s pc = none := by
  rw [isReliablePC, isReliablePCCore_eq _ _ _ hs]
  have hnil : s.jumpTargets.filter (fun p => decide (p.1 ≤ pc)) = [] := by
    rw [List.filter_eq_nil_iff]
    intro q hq
    simp only [decide_eq_true_eq]
    exact Nat.not_le.mpr (h q hq)
  rw [hnil]
  rfl

theorem isReliablePC_requires_entry_witness :
    isReliablePC { demoState with jumpTargets := [(0x1000, 0)] } 0xFFF
      = none :=
  isReliablePC_requires_entry
    { demoState with jumpTargets := [(0x1000, 0)] } 0xFFF
    (by decide) (by decide)

/-! ## C1: split correctness -/

theorem lookupBlock_cons_ne (l : List (BlockId × Block)) (a bid : BlockId)
    (blk : Block) (h : a ≠ bid) :
    lookupBlock ((a, blk) :: l) bid = lookupBlock l bid := by
  have hne : (a == bid) = false := by simpa using h
  simp [lookupBlock, hne]

theorem lookupBlock_cons_self (l : List (BlockId × Block)) (a : BlockId)
    (blk : Block) : lookupBlock ((a, blk) :: l) a = some blk := by
  simp [lookupBlock]

theorem lookupBlock_updateBlock (l : List (BlockId × Block)) (bid : BlockId)
    (blk new : Block) (h : lookupBlock l bid = some blk) :
    lookupBlock (updateBlock l bid new) bid = some new := by
  induction l with
  | nil => simp [lookupBlock] at h
  | cons hd t ih =>
    obtain ⟨a, blk0⟩ := hd
    by_cases hb : (a == bid) = true
    · simp [updateBlock, lookupBlock, hb]
    · have hb' : (a == bid) = false := by simpa using hb
      simp only [lookupBlock, hb', Bool.false_eq_true, if_false] at h
      simp only [updateBlock, hb', Bool.false_eq_true, if_false, lookupBlock]
      exact ih h

/-- C1: a block already translated for the four consecutive addresses
`A .. A+3` with no intervening control transfer (its operation list is the
four registered operations in order), when `materialize(A+2, true)` is
called, is split in two: the original block keeps the operations of `A` and
`A+1` and falls through to the fresh block, which holds the operations of
`A+2` and `A+3` and inherits the original terminator; the fresh block
becomes the registered jump-target entry for `A+2`; and the multiset of
operations across the two blocks equals the original block's operation
multiset. -/
theorem split_correctness (s : JTM) (A : Addr) (B : BlockId) (blk : Block)
    (o0 o1 o2 o3 : Op)
    (hops : blk.ops = [o0, o1, o2, o3])
    (hpc0 : o0.pc = A) (hpc1 : o1.pc = A + 1)
    (hpc2 : o2.pc = A + 2) (hpc3 : o3.pc = A + 3)
    (hblk : lookupBlock s.blocks B = some blk)
    (hBne : B ≠ s.nextId)
    (hreg : lookupIM s.instrMap (A + 2) = some (B, 2))
    (hnojt : lookupJT s.jumpTargets (A + 2) = none)
    (hexec : isExecutableAddress s (A + 2) = true)
    (halign : isInstructionAligned s (A + 2) = true) :
    (getBlockAt s (A + 2) true).1 = some s.nextId ∧
    lookupBlock (getBlockAt s (A + 2) true).2.blocks B
      = some ⟨[o0, o1], some s.nextId⟩ ∧
    lookupBlock (getBlockAt s (A + 2) true).2.blocks s.nextId
      = some ⟨[o2, o3], blk.next⟩ ∧
    lookupJT (getBlockAt s (A + 2) true).2.jumpTargets (A + 2)
      = some s.nextId ∧
    Multiset.ofList [o0, o1] + Multiset.ofList [o2, o3]
      = Multiset.ofList blk.ops := by
  have hft : findTranslated s (A + 2) = some (B, 2, blk) := by
    simp only [findTranslated, hreg, hblk]
  simp only [getBlockAt, hexec, halign, Bool.and_self, Bool.not_true,
    Bool.false_eq_true, if_false, hnojt, hft]
  refine ⟨trivial, ?_, ?_, ?_, ?_⟩
  · rw [lookupBlock_cons_ne _ _ _ _ (fun hx => hBne hx.symm),
      lookupBlock_updateBlock s.blocks B blk _ hblk, hops]
    rfl
  · rw [lookupBlock_cons_self, hops]
    rfl
  · exact lookupJT_insertJT _ _ _
  · rw [hops]
    rfl

/-- A state holding one translated block for the straight-line code at
`0x1000 .. 0x1003` (alignment 1), used to exercise the split. -/
def splitDemoState : JTM where
  executableRanges := [(0x1000, 0x2000)]
  align := 1
  jumpTargets := [(0x1000, 0)]
  reliablePCs := [0x1000]
  visited := []
  unexplored := []
  blocks := [(0, ⟨[⟨0x1000, 10⟩, ⟨0x1001, 11⟩, ⟨0x1002, 12⟩, ⟨0x1003, 13⟩],
    none⟩)]
  instrMap := [(0x1000, (0, 0)), (0x1001, (0, 1)), (0x1002, (0, 2)),
    (0x1003, (0, 3))]
  nextId := 1

theorem split_correctness_witness :
    (getBlockAt splitDemoState 0x1002 true).1 = some 1 ∧
    lookupBlock (getBlockAt splitDemoState 0x1002 true).2.blocks 0
      = some ⟨[⟨0x1000, 10⟩, ⟨0x1001, 11⟩], some 1⟩ ∧
    lookupBlock (getBlockAt splitDemoState 0x1002 true).2.blocks 1
      = some ⟨[⟨0x1002, 12⟩, ⟨0x1003, 13⟩], none⟩ ∧
    lookupJT (getBlockAt splitDemoState 0x1002 true).2.jumpTargets 0x1002
      = some 1 ∧
    Multiset.ofList [⟨0x1000, 10⟩, ⟨0x1001, 11⟩]
      + Multiset.ofList [⟨0x1002, 12⟩, ⟨0x1003, 13⟩]
      = Multiset.ofList ([⟨0x1000, 10⟩, ⟨0x1001, 11⟩, ⟨0x1002, 12⟩,
          ⟨0x1003, 13⟩] : List Op) :=
  split_correctness splitDemoState 0x1000 0
    ⟨[⟨0x1000, 10⟩, ⟨0x1001, 11⟩, ⟨0x1002, 12⟩, ⟨0x1003, 13⟩], none⟩
    ⟨0x1000, 10⟩ ⟨0x1001, 11⟩ ⟨0x1002, 12⟩ ⟨0x1003, 13⟩
    rfl rfl rfl rfl rfl (by decide) (by decide) (by decide) (by decide)
    (by decide) (by decide)

/-! ## C6: the resolver stops at opaque helper calls -/

theorem prevPCWriteRev_helper_first (m rest : List Instr)
    (hm : ∀ i ∈ m, isPCWrite i = false) :
    prevPCWriteRev (m ++ Instr.callHelper :: rest) = none := by
  induction m with
  | nil => rfl
  | cons a t ih =>
    cases a with
    | storePC v =>
      have := hm _ (List.mem_cons_self _ _)
      simp [isPCWrite] at this
    | storeOther => exact ih (fun i hi => hm i (List.mem_cons_of_mem _ hi))
    | callHelper => rfl
    | other => exact ih (fun i hi => hm i (List.mem_cons_of_mem _ hi))

/-- C6: the backward search for the most recent PC write takes only the
single block's instruction list (it cannot cross block boundaries by
construction), and when an opaque external helper call sits after every
store to the PC register — so the backward walk meets the call first — it
returns nothing and the resolver leaves the block's exit indirect (the
`ExitTB` call is not rewritten into a direct branch), with the registry
untouched: no error is raised. -/
theorem resolver_opaque_call_stop (s : JTM) (l1 l2 : List Instr)
    (h : ∀ i ∈ l2, isPCWrite i = false) :
    getPrevPCWrite (l1 ++ Instr.callHelper :: l2) = none ∧
    resolveBlock s (l1 ++ Instr.callHelper :: l2) = (Exit.dispatcher, s) := by
  have hg : getPrevPCWrite (l1 ++ Instr.callHelper :: l2) = none := by
    unfold getPrevPCWrite
    rw [List.reverse_append, List.reverse_cons, List.append_assoc,
      List.singleton_append]
    exact prevPCWriteRev_helper_first l2.reverse l1.reverse
      (fun i hi => h i (List.mem_reverse.mp hi))
  refine ⟨hg, ?_⟩
  unfold resolveBlock
  rw [hg]

theorem resolver_opaque_call_stop_witness :
    getPrevPCWrite [Instr.storePC (some 0x1000), Instr.callHelper,
      Instr.storeOther] = none ∧
    resolveBlock demoState [Instr.storePC (some 0x1000), Instr.callHelper,
      Instr.storeOther] = (Exit.dispatcher, demoState) :=
  resolver_opaque_call_stop demoState [Instr.storePC (some 0x1000)]
    [Instr.storeOther] (by decide)

end RevngJTM
